import Mathlib

/-!
# Verification of the RFP evaluation-table core

Shallow embedding of the core subsystems of the RFP evaluation tool
(`frontend/app/routes/$.tsx`): the aggregation engine
(`calculateOverallScore`), the weight-edit normalization
(`handleInputBlur` and the `+`/`−` button handlers), the column order
controller (`moveColumn`), the filter engine (`filteredData`,
`getVendorOptions`) and the criteria-tree weight mutation
(`handleWeightChange`).

JavaScript numbers are modelled by `ℚ` (all arithmetic in the evaluated
claims stays exact; `Math.round` is round-half-toward-+∞), strings by
`String`, `undefined` by `Option.none`, and arrays by `List`.
-/

namespace RFP

/-- JS `Math.round`: the nearest integer, rounding halves toward +∞,
i.e. `⌊q + 1/2⌋`.  Implemented with integer (Euclidean) division so that
it evaluates by kernel reduction; `jsRound_eq_floor` proves the
characterization. -/
def jsRound (q : ℚ) : ℤ :=
  (2 * q.num + (q.den : ℤ)) / (2 * (q.den : ℤ))

theorem jsRound_eq_floor (q : ℚ) : jsRound q = ⌊q + 1 / 2⌋ := by
  have hd : ((2 * q.den : ℕ) : ℚ) ≠ 0 := by
    exact_mod_cast Nat.mul_ne_zero (by norm_num) q.den_nz
  have hval : q + 1 / 2 =
      ((2 * q.num + (q.den : ℤ) : ℤ) : ℚ) / ((2 * q.den : ℕ) : ℚ) := by
    rw [eq_div_iff hd]
    push_cast
    linear_combination (2 : ℚ) * Rat.mul_den_eq_num q
  rw [hval, Rat.floor_intCast_div_natCast]
  unfold jsRound
  push_cast
  rfl

theorem jsRound_intCast (n : ℤ) : jsRound (n : ℚ) = n := by
  rw [jsRound_eq_floor, Int.floor_eq_iff]
  constructor
  · linarith
  · linarith

/-- Evaluating `Math.round (m / 5)` for an integer `m` as integer arithmetic. -/
theorem jsRound_intCast_div_five (m : ℤ) :
    jsRound ((m : ℚ) / 5) = (2 * m + 5) / 10 := by
  have hval : (m : ℚ) / 5 + 1 / 2 =
      ((2 * m + 5 : ℤ) : ℚ) / ((10 : ℕ) : ℚ) := by
    push_cast
    ring
  rw [jsRound_eq_floor, hval, Rat.floor_intCast_div_natCast]
  norm_num

/-- Source (`$.tsx:304-311`):
```js
function calculateOverallScore(sectionScores, weights) {
  const totalWeight = weights.reduce((sum, w) => sum + w, 0);
  if (totalWeight === 0) return 0;
  const raw = sectionScores
    .map((score, i) => score * weights[i])
    .reduce((sum, x) => sum + x, 0) / totalWeight;
  return Math.round(raw * 10) / 10; // one decimal place
}
```
The per-index products are modelled with `zipWith`; when the two lists
have different lengths the source would produce `NaN` (no rational
counterpart), so the functional-correctness claim carries an
equal-length hypothesis. -/
def calculateOverallScore (sectionScores weights : List ℚ) : ℚ :=
  let totalWeight := weights.foldl (· + ·) 0
  if totalWeight = 0 then 0
  else
    let raw := (List.zipWith (· * ·) sectionScores weights).foldl (· + ·) 0 / totalWeight
    (jsRound (raw * 10) : ℚ) / 10

/-- The spec's weighted mean: `Σ score[i]·weight[i] / Σ weight[i]`. -/
def weightedMeanSpec (sectionScores weights : List ℚ) : ℚ :=
  (List.zipWith (· * ·) sectionScores weights).sum / weights.sum

/-- The spec's "rounded to one decimal place". -/
def roundTo1Spec (x : ℚ) : ℚ :=
  (jsRound (x * 10) : ℚ) / 10

theorem foldl_add_eq_sum (l : List ℚ) : l.foldl (· + ·) 0 = l.sum := by
  suffices h : ∀ a : ℚ, l.foldl (· + ·) a = a + l.sum by
    simpa using h 0
  induction l with
  | nil => intro a; simp
  | cons x xs ih =>
    intro a
    simp [List.foldl_cons, ih, List.sum_cons]
    ring

/-- Claim C1: For equal-length score/weight vectors with positive total
weight, `calculateOverallScore` returns the weighted mean
`Σ score[i]·weight[i] / Σ weight[i]`, rounded to one decimal place
(JS `Math.round(raw * 10) / 10`).  The particular instance
`calculateOverallScore [80,60] [50,50] = 70` is checked in the witness. -/
theorem calculateOverallScore_eq_roundedWeightedMean
    (sectionScores weights : List ℚ)
    (hlen : sectionScores.length = weights.length)
    (hpos : 0 < weights.sum) :
    calculateOverallScore sectionScores weights =
      roundTo1Spec (weightedMeanSpec sectionScores weights) := by
  unfold calculateOverallScore roundTo1Spec weightedMeanSpec
  rw [foldl_add_eq_sum, foldl_add_eq_sum]
  rw [if_neg (by exact ne_of_gt hpos)]

theorem calculateOverallScore_eq_roundedWeightedMean_witness :
    ([(80 : ℚ), 60].length = [(50 : ℚ), 50].length) ∧
      0 < [(50 : ℚ), 50].sum ∧
      calculateOverallScore [80, 60] [50, 50] = 70 := by
  refine ⟨rfl, by norm_num, ?_⟩
  rw [calculateOverallScore_eq_roundedWeightedMean [80, 60] [50, 50] rfl
    (by norm_num)]
  have h1 : weightedMeanSpec [80, 60] [50, 50] = 70 := by
    simp [weightedMeanSpec]
    norm_num
  rw [h1]
  unfold roundTo1Spec
  rw [show (70 : ℚ) * 10 = ((700 : ℤ) : ℚ) by norm_num, jsRound_intCast]
  norm_num

/-- Claim C2: Whenever the weights sum to `0`, `calculateOverallScore`
returns `0`: the division is guarded by the `totalWeight === 0` check,
so the function is total and never divides by the zero total weight. -/
theorem calculateOverallScore_zero_total_weight
    (sectionScores weights : List ℚ) (h : weights.sum = 0) :
    calculateOverallScore sectionScores weights = 0 := by
  unfold calculateOverallScore
  rw [foldl_add_eq_sum, if_pos h]

theorem calculateOverallScore_zero_total_weight_witness :
    ([(50 : ℚ), -50].sum = 0) ∧ calculateOverallScore [80, 60] [50, -50] = 0 :=
  ⟨by norm_num, calculateOverallScore_zero_total_weight [80, 60] [50, -50]
    (by norm_num)⟩

/-! ## Weight-edit normalization (`$.tsx:515-582`) -/

/-- Decimal digit characters of `n`, most significant first (empty for
`0`); the first argument is structural fuel, instantiated with `n`
itself so that the kernel can evaluate it. -/
def natToStringAux : ℕ → ℕ → List Char
  | 0, _ => []
  | fuel + 1, n =>
    if n = 0 then [] else natToStringAux fuel (n / 10) ++ [Char.ofNat (48 + n % 10)]

/-- Decimal rendering of a natural number, as JS `String(n)` yields. -/
def natToString (n : ℕ) : String :=
  if n = 0 then "0" else String.mk (natToStringAux n n)

/-- JS number-to-string coercion (`num + '%'`) restricted to integers. -/
def jsIntToString (i : ℤ) : String :=
  if i < 0 then "-" ++ natToString i.natAbs else natToString i.natAbs

/-- Numeric value of a list of decimal digit characters. -/
def digitValNat (l : List Char) : ℕ :=
  l.foldl (fun acc d => 10 * acc + (d.toNat - 48)) 0

/-- JS `parseInt(s)` (radix 10): skip leading whitespace, read an
optional sign, then the longest prefix of decimal digits; `none` models
`NaN`.  (The hexadecimal `0x` branch of `parseInt` is not modelled: the
weight input only ever holds strings matching `/^\d{0,3}$/`, enforced by
`handleInputChange`.) -/
def parseIntJS (s : String) : Option ℤ :=
  let t := s.data.dropWhile Char.isWhitespace
  match t with
  | [] => none
  | c :: rest =>
    let sign : ℤ := if c = '-' then -1 else 1
    let body := if c = '-' ∨ c = '+' then rest else t
    let digits := body.takeWhile Char.isDigit
    if digits.isEmpty then none
    else some (sign * (digitValNat digits : ℤ))

/-- Source (`$.tsx:535`): `Math.max(0, Math.min(100, Math.round(num / 5) * 5))`. -/
def normalizeWeight (num : ℤ) : ℤ :=
  max 0 (min 100 (jsRound ((num : ℚ) / 5) * 5))

/-- Source (`$.tsx:529-538`), the value committed on blur:
```js
let num = parseInt(inputValue);
if (isNaN(num)) { handleWeightChange(row.original.id, ''); ... }
else { num = Math.max(0, Math.min(100, Math.round(num / 5) * 5));
       handleWeightChange(row.original.id, num + '%'); }
```
The committed weight string does not depend on the node id, so it is
modelled as a function of the raw input alone. -/
def handleInputBlurCommit (inputValue : String) : String :=
  match parseIntJS inputValue with
  | none => ""
  | some num => jsIntToString (normalizeWeight num) ++ "%"

/-- Source (`$.tsx:546,574`): `parseInt(inputValue || '0') || 0`. -/
def buttonCurrent (inputValue : String) : ℤ :=
  match parseIntJS (if inputValue = "" then "0" else inputValue) with
  | none => 0
  | some n => n

/-- Source (`$.tsx:547-548`): the `−` button commits
`Math.max(0, current - 5) + '%'`. -/
def minusCommit (inputValue : String) : String :=
  jsIntToString (max 0 (buttonCurrent inputValue - 5)) ++ "%"

/-- Source (`$.tsx:575-576`): the `+` button commits
`Math.min(100, current + 5) + '%'`. -/
def plusCommit (inputValue : String) : String :=
  jsIntToString (min 100 (buttonCurrent inputValue + 5)) ++ "%"

/-- Source (`$.tsx:523-528`): the input field only accepts the empty
string or up to three decimal digits (`/^\d{0,3}$/`). -/
def handleInputChangeAccepts (s : String) : Bool :=
  s = "" || (s.length ≤ 3 && s.data.all Char.isDigit)

/-- The stored-weight shape stated by the claim: empty, or `"<n>%"` with
`n` a multiple of `5` in `[0, 100]`. -/
def weightValueWellFormed (s : String) : Prop :=
  s = "" ∨ ∃ n : ℕ, n ≤ 100 ∧ 5 ∣ n ∧ s = natToString n ++ "%"

/-- The spec's clamp to `[0, 100]`. -/
def clampIntSpec (m : ℤ) : ℤ := max 0 (min 100 m)

/-- The spec's round to the nearest multiple of `5`
(half away from zero on `m / 5`). -/
def roundToNearest5Spec (m : ℤ) : ℤ := jsRound ((m : ℚ) / 5) * 5

theorem normalizeWeight_eq_int (m : ℤ) :
    normalizeWeight m = max 0 (min 100 ((2 * m + 5) / 10 * 5)) := by
  unfold normalizeWeight
  rw [jsRound_intCast_div_five]

/-- The source rounds before clamping; on integers this coincides with
the spec's clamp-then-round order. -/
theorem normalizeWeight_eq_clamp_round (m : ℤ) :
    normalizeWeight m = roundToNearest5Spec (clampIntSpec m) := by
  rw [normalizeWeight_eq_int]
  unfold roundToNearest5Spec clampIntSpec
  rw [jsRound_intCast_div_five]
  omega

theorem isDigit_not_isWhitespace {c : Char} (h : c.isDigit = true) :
    c.isWhitespace = false := by
  by_contra hw
  rw [Bool.not_eq_false] at hw
  simp only [Char.isWhitespace, Bool.or_eq_true, decide_eq_true_eq] at hw
  rcases hw with ((rfl | rfl) | rfl) | rfl <;> exact absurd h (by decide)

theorem isDigit_ne_dash {c : Char} (h : c.isDigit = true) : c ≠ '-' := by
  rintro rfl
  exact absurd h (by decide)

theorem isDigit_ne_plus {c : Char} (h : c.isDigit = true) : c ≠ '+' := by
  rintro rfl
  exact absurd h (by decide)

theorem parseIntJS_nonneg_of_all_digits (s : String)
    (hd : s.data.all Char.isDigit = true) :
    ∀ v, parseIntJS s = some v → 0 ≤ v := by
  intro v hv
  unfold parseIntJS at hv
  cases hc : s.data with
  | nil => rw [hc] at hv; simp at hv
  | cons c rest =>
    rw [hc] at hv
    rw [hc, List.all_cons, Bool.and_eq_true] at hd
    have hw : c.isWhitespace = false := isDigit_not_isWhitespace hd.1
    have hdash : (c = '-') = False := eq_false (isDigit_ne_dash hd.1)
    have hsign : (c = '-' ∨ c = '+') = False := eq_false (by
      rintro (rfl | rfl) <;> exact absurd hd.1 (by decide))
    rw [List.dropWhile_cons, hw] at hv
    simp only [Bool.false_eq_true, if_false] at hv
    simp only [hsign] at hv
    simp only [hdash] at hv
    simp only [if_false, List.takeWhile_cons, hd.1, if_true,
      List.isEmpty_cons, Bool.false_eq_true, one_mul,
      Option.some_inj] at hv
    omega

theorem buttonCurrent_nonneg (s : String)
    (hacc : handleInputChangeAccepts s = true) : 0 ≤ buttonCurrent s := by
  by_cases hs : s = ""
  · subst hs
    decide
  · have hd : s.data.all Char.isDigit = true := by
      unfold handleInputChangeAccepts at hacc
      simp only [Bool.or_eq_true, decide_eq_true_eq, Bool.and_eq_true] at hacc
      rcases hacc with h | h
      · exact absurd h hs
      · exact h.2
    unfold buttonCurrent
    rw [if_neg hs]
    cases h : parseIntJS s with
    | none => exact le_refl 0
    | some v => exact parseIntJS_nonneg_of_all_digits s hd v h

/-- Claim C3, amended: The value committed on input blur is either empty
or `"<n>%"` with `n` a multiple of 5 in `[0, 100]`, and the source's
round-then-clamp normalization coincides with the spec's
clamp-then-round description.  The `+`/`−` buttons, however, commit the
current parsed value `±5` clamped on one side only, without snapping:
their committed value is `"<n>%"` with `n ≥ 0` (and `n ≤ 100` for `+`),
a multiple of 5 only when the current parsed input value is one. -/
theorem setWeight_commit_normalization :
    (∀ s : String, weightValueWellFormed (handleInputBlurCommit s)) ∧
    (∀ m : ℤ, normalizeWeight m = roundToNearest5Spec (clampIntSpec m)) ∧
    (∀ s : String, handleInputChangeAccepts s = true →
      ∃ n k : ℕ, n ≤ 100 ∧
        plusCommit s = natToString n ++ "%" ∧
        minusCommit s = natToString k ++ "%" ∧
        ((5 : ℤ) ∣ buttonCurrent s → 5 ∣ n ∧ 5 ∣ k)) := by
  refine ⟨?_, normalizeWeight_eq_clamp_round, ?_⟩
  · intro s
    unfold handleInputBlurCommit
    cases h : parseIntJS s with
    | none => exact Or.inl rfl
    | some num =>
      show weightValueWellFormed (jsIntToString (normalizeWeight num) ++ "%")
      have hi := normalizeWeight_eq_int num
      have h0 : 0 ≤ normalizeWeight num := by omega
      have h100 : normalizeWeight num ≤ 100 := by omega
      have hdvd : (5 : ℤ) ∣ normalizeWeight num := by omega
      refine Or.inr ⟨(normalizeWeight num).toNat, by omega, by omega, ?_⟩
      unfold jsIntToString
      rw [if_neg (by omega)]
      have habs : (normalizeWeight num).natAbs = (normalizeWeight num).toNat := by
        omega
      rw [habs]
  · intro s hacc
    have h0 : 0 ≤ buttonCurrent s := buttonCurrent_nonneg s hacc
    refine ⟨(min 100 (buttonCurrent s + 5)).toNat,
      (max 0 (buttonCurrent s - 5)).toNat, by omega, ?_, ?_, ?_⟩
    · unfold plusCommit jsIntToString
      rw [if_neg (by omega)]
      have habs : (min 100 (buttonCurrent s + 5)).natAbs =
          (min 100 (buttonCurrent s + 5)).toNat := by omega
      rw [habs]
    · unfold minusCommit jsIntToString
      rw [if_neg (by omega)]
      have habs : (max 0 (buttonCurrent s - 5)).natAbs =
          (max 0 (buttonCurrent s - 5)).toNat := by omega
      rw [habs]
    · intro hdvd
      constructor <;> omega

theorem setWeight_commit_normalization_witness :
    (handleInputChangeAccepts "35" = true) ∧
    (∃ n k : ℕ, n ≤ 100 ∧
      plusCommit "35" = natToString n ++ "%" ∧
      minusCommit "35" = natToString k ++ "%" ∧
      ((5 : ℤ) ∣ buttonCurrent "35" → 5 ∣ n ∧ 5 ∣ k)) :=
  ⟨by decide, setWeight_commit_normalization.2.2 "35" (by decide)⟩

/-- Claim C3, counterexample to the claim as stated: With the uncommitted
input `"7"` (accepted by the field's `/^\d{0,3}$/` filter), the `+`
button — one of the claim's cited commit paths — commits `"12%"`, which
is not the empty string and not `"<n>%"` for any multiple of 5 in
`[0, 100]`. -/
theorem setWeight_commit_counterexample :
    handleInputChangeAccepts "7" = true ∧
    plusCommit "7" = "12%" ∧
    ¬ weightValueWellFormed (plusCommit "7") := by
  refine ⟨by decide, by decide, ?_⟩
  rw [show plusCommit "7" = "12%" from by decide]
  rintro (h1 | ⟨n, hn, hdvd, heq⟩)
  · exact absurd h1 (by decide)
  · interval_cases n <;> revert heq <;> revert hdvd <;> decide

/-! ## Column order controller (`$.tsx:471-482, 772-779`) -/

/-- Source (`$.tsx:480`). -/
def pinnedColumnIds : List String := ["title", "weight"]

/-- Source (`$.tsx:473-479`). -/
def vendorColumnIds : List String :=
  ["LangeTech", "Best Pacific", "KMNM", "Bhilosa", "Tianhai Lace"]

/-- Source (`$.tsx:481`): the initial column order. -/
def allColumnIds : List String := pinnedColumnIds ++ vendorColumnIds

/-- JS bracket indexing `a[i]`: `undefined` (`none`) when out of range;
negative indices do not wrap. -/
def jsIndex {α : Type} (l : List α) (i : ℤ) : Option α :=
  if i < 0 then none else l[i.toNat]?

/-- JS `Array.prototype.splice` start-index normalization: negative
values count from the end (clamped to `0`), large values clamp to the
length. -/
def spliceStart (len : ℕ) (i : ℤ) : ℕ :=
  if i < 0 then ((len : ℤ) + i).toNat else min i.toNat len

/-- JS `l.splice(i, 1)`: remove (at most) one element at the normalized
start index. -/
def spliceRemoveOne {α : Type} (l : List α) (i : ℤ) : List α :=
  let s := spliceStart l.length i
  l.take s ++ l.drop (s + 1)

/-- JS `l.splice(i, 0, a)`: insert `a` at the normalized start index. -/
def spliceInsert {α : Type} (l : List α) (i : ℤ) (a : α) : List α :=
  let s := spliceStart l.length i
  l.take s ++ a :: l.drop s

/-- Source (`$.tsx:772-779`):
```js
const moveColumn = (dragIndex, hoverIndex) => {
  const pinned = columnOrder.slice(0, pinnedColumnIds.length);
  const vendors = columnOrder.slice(pinnedColumnIds.length);
  const dragCol = vendors[dragIndex - pinnedColumnIds.length];
  vendors.splice(dragIndex - pinnedColumnIds.length, 1);
  vendors.splice(hoverIndex - pinnedColumnIds.length, 0, dragCol);
  setColumnOrder([...pinned, ...vendors]);
};
```
`dragCol` may be `undefined` (out-of-range read) and is then spliced
into the array as a value, so the resulting order is a list of
`Option String` (`none` = `undefined`); in-range calls produce
`some`-entries only. -/
def moveColumn (order : List String) (dragIndex hoverIndex : ℤ) :
    List (Option String) :=
  (order.take pinnedColumnIds.length).map some ++
    spliceInsert
      (spliceRemoveOne ((order.drop pinnedColumnIds.length).map some)
        (dragIndex - pinnedColumnIds.length))
      (hoverIndex - pinnedColumnIds.length)
      (jsIndex (order.drop pinnedColumnIds.length)
        (dragIndex - pinnedColumnIds.length))

theorem insertIdx_eq_take_cons_drop {α : Type} (a : α) :
    ∀ (s : ℕ) (l : List α), s ≤ l.length →
      l.insertIdx s a = l.take s ++ a :: l.drop s := by
  intro s
  induction s with
  | zero => intro l _; simp
  | succ n ih =>
    intro l hl
    cases l with
    | nil => simp at hl
    | cons x xs =>
      simp only [List.insertIdx_succ_cons, List.take_succ_cons,
        List.drop_succ_cons, List.cons_append, List.cons.injEq, true_and]
      exact ih xs (by simpa using hl)

theorem spliceRemoveOne_eq_eraseIdx {α : Type} (l : List α) (s : ℕ)
    (hs : s ≤ l.length) : spliceRemoveOne l (s : ℤ) = l.eraseIdx s := by
  unfold spliceRemoveOne spliceStart
  rw [if_neg (by omega)]
  rw [Int.toNat_natCast, min_eq_left hs, List.eraseIdx_eq_take_drop_succ]

theorem spliceInsert_eq_insertIdx {α : Type} (l : List α) (s : ℕ) (a : α)
    (hs : s ≤ l.length) : spliceInsert l (s : ℤ) a = l.insertIdx s a := by
  unfold spliceInsert spliceStart
  rw [if_neg (by omega)]
  rw [Int.toNat_natCast, min_eq_left hs,
    insertIdx_eq_take_cons_drop a s l hs]

theorem insertIdx_get_eraseIdx {α : Type} :
    ∀ (l : List α) (s : ℕ) (h : s < l.length),
      (l.eraseIdx s).insertIdx s (l.get ⟨s, h⟩) = l := by
  intro l
  induction l with
  | nil => intro s h; simp at h
  | cons a t ih =>
    intro s h
    cases s with
    | zero => simp [List.eraseIdx, List.insertIdx_zero]
    | succ n =>
      simp only [List.eraseIdx_cons_succ, List.insertIdx_succ_cons,
        List.get_cons_succ, List.cons.injEq, true_and]
      exact ih n (by simpa using h)

/-- The pinned prefix of the order is copied verbatim by `moveColumn`,
whatever the indices are. -/
theorem moveColumn_take_pinned_aux (order : List String) (d h : ℤ)
    (hlen : pinnedColumnIds.length ≤ order.length) :
    (moveColumn order d h).take pinnedColumnIds.length =
      (order.take pinnedColumnIds.length).map some := by
  unfold moveColumn
  rw [List.take_append_eq_append_take]
  have hl : (List.map some (order.take pinnedColumnIds.length)).length =
      pinnedColumnIds.length := by
    simp [min_eq_left hlen]
  rw [hl, Nat.sub_self, List.take_zero, List.append_nil,
    List.take_of_length_le (le_of_eq hl)]

/-- Claim C4: For source and destination indices inside the reorderable
suffix, `moveColumn` removes the element at the suffix-relative source
index and reinserts it at the suffix-relative destination index; the
pinned prefix and the total length are unchanged, and equal indices give
a no-op. -/
theorem moveColumn_in_range (order : List String) (f t : ℕ)
    (hf1 : pinnedColumnIds.length ≤ f) (hf2 : f < order.length)
    (ht1 : pinnedColumnIds.length ≤ t) (ht2 : t < order.length) :
    (∀ x, (order.drop pinnedColumnIds.length)[f - pinnedColumnIds.length]? =
        some x →
      moveColumn order (f : ℤ) (t : ℤ) =
        (order.take pinnedColumnIds.length ++
          List.insertIdx (t - pinnedColumnIds.length) x
            ((order.drop pinnedColumnIds.length).eraseIdx
              (f - pinnedColumnIds.length))).map some) ∧
    (moveColumn order (f : ℤ) (t : ℤ)).length = order.length ∧
    (moveColumn order (f : ℤ) (t : ℤ)).take pinnedColumnIds.length =
      (order.take pinnedColumnIds.length).map some ∧
    (f = t → moveColumn order (f : ℤ) (t : ℤ) = order.map some) := by
  have hvlen : (order.drop pinnedColumnIds.length).length =
      order.length - pinnedColumnIds.length := List.length_drop _ _
  have hmain : ∀ x,
      (order.drop pinnedColumnIds.length)[f - pinnedColumnIds.length]? =
        some x →
      moveColumn order (f : ℤ) (t : ℤ) =
        (order.take pinnedColumnIds.length ++
          List.insertIdx (t - pinnedColumnIds.length) x
            ((order.drop pinnedColumnIds.length).eraseIdx
              (f - pinnedColumnIds.length))).map some := by
    intro x hx
    unfold moveColumn
    have hfz : (f : ℤ) - (pinnedColumnIds.length : ℤ) =
        ((f - pinnedColumnIds.length : ℕ) : ℤ) := by omega
    have htz : (t : ℤ) - (pinnedColumnIds.length : ℤ) =
        ((t - pinnedColumnIds.length : ℕ) : ℤ) := by omega
    rw [hfz, htz]
    have hji : jsIndex (order.drop pinnedColumnIds.length)
        ((f - pinnedColumnIds.length : ℕ) : ℤ) = some x := by
      unfold jsIndex
      rw [if_neg (by omega), Int.toNat_natCast]
      exact hx
    rw [hji]
    have hfle : f - pinnedColumnIds.length ≤
        ((order.drop pinnedColumnIds.length).map some).length := by
      rw [List.length_map]
      omega
    rw [spliceRemoveOne_eq_eraseIdx _ _ hfle]
    have hera : ((order.drop pinnedColumnIds.length).map some).eraseIdx
        (f - pinnedColumnIds.length) =
        ((order.drop pinnedColumnIds.length).eraseIdx
          (f - pinnedColumnIds.length)).map some := by
      simp only [List.eraseIdx_eq_take_drop_succ, ← List.map_take,
        ← List.map_drop, ← List.map_append]
    rw [hera]
    have hflt : f - pinnedColumnIds.length <
        (order.drop pinnedColumnIds.length).length := by omega
    have herlen : ((order.drop pinnedColumnIds.length).eraseIdx
        (f - pinnedColumnIds.length)).length + 1 =
        (order.drop pinnedColumnIds.length).length :=
      List.length_eraseIdx_add_one hflt
    have htle : t - pinnedColumnIds.length ≤
        ((order.drop pinnedColumnIds.length).eraseIdx
          (f - pinnedColumnIds.length)).length := by omega
    have htle2 : t - pinnedColumnIds.length ≤
        (((order.drop pinnedColumnIds.length).eraseIdx
          (f - pinnedColumnIds.length)).map some).length := by
      rw [List.length_map]
      exact htle
    rw [spliceInsert_eq_insertIdx _ _ _ htle2]
    have hins : (((order.drop pinnedColumnIds.length).eraseIdx
          (f - pinnedColumnIds.length)).map some).insertIdx
          (t - pinnedColumnIds.length) (some x) =
        (((order.drop pinnedColumnIds.length).eraseIdx
          (f - pinnedColumnIds.length)).insertIdx
          (t - pinnedColumnIds.length) x).map some := by
      rw [insertIdx_eq_take_cons_drop _ _ _ htle2,
        insertIdx_eq_take_cons_drop _ _ _ htle]
      simp only [← List.map_take, ← List.map_drop, ← List.map_cons,
        ← List.map_append]
    rw [hins, List.map_append]
  have hx : ∃ x,
      (order.drop pinnedColumnIds.length)[f - pinnedColumnIds.length]? =
        some x := ⟨_, List.getElem?_eq_getElem (by omega)⟩
  obtain ⟨x, hxe⟩ := hx
  refine ⟨hmain, ?_, moveColumn_take_pinned_aux order _ _ (by omega), ?_⟩
  · rw [hmain x hxe]
    have hflt : f - pinnedColumnIds.length <
        (order.drop pinnedColumnIds.length).length := by omega
    have herlen := List.length_eraseIdx_add_one hflt
    rw [List.length_map, List.length_append, List.length_take,
      List.length_insertIdx _ _ (by omega)]
    omega
  · intro hft
    subst hft
    rw [hmain x hxe]
    have hflt : f - pinnedColumnIds.length <
        (order.drop pinnedColumnIds.length).length := by omega
    have hget : (order.drop pinnedColumnIds.length).get
        ⟨f - pinnedColumnIds.length, hflt⟩ = x := by
      have h2 := List.getElem?_eq_getElem hflt
      rw [hxe] at h2
      rw [List.get_eq_getElem]
      exact (Option.some_inj.mp h2).symm
    rw [← hget, insertIdx_get_eraseIdx _ _ hflt, List.take_append_drop]

theorem moveColumn_in_range_witness :
    (moveColumn allColumnIds ((4 : ℕ) : ℤ) ((2 : ℕ) : ℤ)).length =
      allColumnIds.length :=
  (moveColumn_in_range allColumnIds 4 2 (by decide) (by decide) (by decide)
    (by decide)).2.1

/-- Claim C5, counterexample to the claim as stated: `moveColumn` does
not reject or clamp a call whose source index `0` lies inside the pinned
prefix: on the initial column order the result differs from the
original (a vendor entry is removed from the suffix and an `undefined`
entry is inserted, by JS negative-index splice semantics). -/
theorem moveColumn_pinned_counterexample :
    ((0 : ℤ) < (pinnedColumnIds.length : ℤ)) ∧
    moveColumn allColumnIds 0 2 ≠ allColumnIds.map some := by
  exact ⟨by decide, by decide⟩

/-- Claim C5, amended: `moveColumn` performs no index validation: a call
whose source or destination index lies in the pinned prefix is neither
rejected nor clamped to a no-op and can corrupt the reorderable suffix
(the guard lives at the call site, where only vendor columns are
draggable/droppable).  What does hold is that the pinned prefix itself
is never modified by any call. -/
theorem moveColumn_pinned_prefix_preserved (order : List String)
    (d h : ℤ) (hlen : pinnedColumnIds.length ≤ order.length) :
    (moveColumn order d h).take pinnedColumnIds.length =
      (order.take pinnedColumnIds.length).map some :=
  moveColumn_take_pinned_aux order d h hlen

theorem moveColumn_pinned_prefix_preserved_witness :
    pinnedColumnIds.length ≤ allColumnIds.length ∧
    (moveColumn allColumnIds 0 2).take pinnedColumnIds.length =
      (allColumnIds.take pinnedColumnIds.length).map some :=
  ⟨by decide, moveColumn_pinned_prefix_preserved allColumnIds 0 2 (by decide)⟩

/-! ## Data model and filter engine (`$.tsx:77-90, 641-697`) -/

/-- Source (`$.tsx:77-82`): a sub-criterion row. -/
structure SubCriteria where
  id : String
  text : String
  weight : String
  scores : List String
deriving DecidableEq

/-- Source (`$.tsx:84-90`): a top-level row; `sub` is `none` when the
`sub?` field is absent (`undefined`). -/
structure TableRow where
  id : String
  title : String
  weight : String
  scores : List String
  sub : Option (List SubCriteria)
deriving DecidableEq

/-- Filter predicate type (`'text' | 'option'`). -/
inductive FType where
  | text : FType
  | option : FType
deriving DecidableEq

/-- One entry of `columnsConfig` (`$.tsx:650-670`): id, accessor and
declared type.  The accessor yields `none` for `undefined`
(out-of-range `scores[i]`).  The per-column `options` list is computed
separately by `getVendorOptions` and is not consulted by the filter. -/
structure ColumnConfig where
  id : String
  accessor : TableRow → Option String
  ftype : FType

/-- Source (`$.tsx:650-670`). -/
def columnsConfig : List ColumnConfig :=
  [⟨"title", fun r => some r.title, .text⟩,
   ⟨"weight", fun r => some r.weight, .text⟩,
   ⟨"LangeTech", fun r => r.scores[0]?, .option⟩,
   ⟨"Best Pacific", fun r => r.scores[1]?, .option⟩,
   ⟨"KMNM", fun r => r.scores[2]?, .option⟩,
   ⟨"Bhilosa", fun r => r.scores[3]?, .option⟩,
   ⟨"Tianhai Lace", fun r => r.scores[4]?, .option⟩]

/-- A `FilterPredicate` `{ columnId, type, values }`. -/
structure FilterPredicate where
  columnId : String
  ftype : FType
  values : List String
deriving DecidableEq

/-- JS `String(value)`: `undefined` renders as `"undefined"`. -/
def jsStringOfOpt (o : Option String) : String := o.getD "undefined"

/-- JS `hay.includes(needle)` on character lists: some suffix of `hay`
starts with `needle`. -/
def containsSubList (hay needle : List Char) : Bool :=
  hay.tails.any (fun t => needle.isPrefixOf t)

/-- JS `s.includes(sub)` (substring containment). -/
def jsIncludes (s sub : String) : Bool := containsSubList s.data sub.data

/-- Source (`$.tsx:687-696`), the per-predicate match:
```js
const col = columnsConfig.find((c) => c.id === filter.columnId);
if (!col) return true;
const value = col.accessor(row);
if (filter.type === 'text') {
  return filter.values.length === 0 ||
    filter.values.some((v) => String(value).toLowerCase()
      .includes(String(v).toLowerCase()));
}
return true;
```
-/
def matchesFilter (row : TableRow) (f : FilterPredicate) : Bool :=
  match columnsConfig.find? (fun c => c.id == f.columnId) with
  | none => true
  | some col =>
    match f.ftype with
    | .text =>
      f.values.isEmpty ||
        f.values.any (fun v =>
          jsIncludes (jsStringOfOpt (col.accessor row)).toLower v.toLower)
    | .option => true

/-- Source (`$.tsx:685-697`): keep the top-level rows matching all
predicates. -/
def filteredData (data : List TableRow) (filters : List FilterPredicate) :
    List TableRow :=
  data.filter (fun row => filters.all (fun f => matchesFilter row f))

/-- The spec's description of per-predicate satisfaction: vacuous on an
empty value list; a text predicate is satisfied when any value is a
case-insensitive substring of the field value resolved through the
predicate's column accessor; option-type predicates always match. -/
def satisfiesPredicateSpec (f : FilterPredicate) (row : TableRow) : Prop :=
  match columnsConfig.find? (fun c => c.id == f.columnId) with
  | none => True
  | some col =>
    match f.ftype with
    | .text =>
      f.values = [] ∨ ∃ v ∈ f.values,
        jsIncludes (jsStringOfOpt (col.accessor row)).toLower v.toLower = true
    | .option => True

theorem matchesFilter_eq_true_iff (row : TableRow) (f : FilterPredicate) :
    matchesFilter row f = true ↔ satisfiesPredicateSpec f row := by
  unfold matchesFilter satisfiesPredicateSpec
  cases columnsConfig.find? (fun c => c.id == f.columnId) with
  | none => simp
  | some col =>
    cases f.ftype with
    | text =>
      simp [List.isEmpty_iff, List.any_eq_true]
    | option => simp

/-- Claim C6: A top-level row appears in the filtered result iff it
satisfies every predicate (AND across predicates): a text predicate
with an empty value list is vacuously satisfied, and otherwise a text
predicate is satisfied iff some value is a case-insensitive substring
of the row's field value resolved through the predicate's column
accessor (OR within one predicate). -/
theorem filteredData_mem_iff (data : List TableRow)
    (filters : List FilterPredicate) (row : TableRow) :
    row ∈ filteredData data filters ↔
      row ∈ data ∧ ∀ f ∈ filters, satisfiesPredicateSpec f row := by
  unfold filteredData
  rw [List.mem_filter]
  constructor
  · rintro ⟨hmem, hall⟩
    refine ⟨hmem, fun f hf => ?_⟩
    rw [← matchesFilter_eq_true_iff]
    exact List.all_eq_true.mp hall f hf
  · rintro ⟨hmem, hall⟩
    refine ⟨hmem, List.all_eq_true.mpr fun f hf => ?_⟩
    rw [matchesFilter_eq_true_iff]
    exact hall f hf

/-- Claim C7: A predicate of type `option` always matches, whatever its
values and whatever the row: the filter never narrows on option-type
predicates. -/
theorem matchesFilter_option_always_true (row : TableRow)
    (f : FilterPredicate) (h : f.ftype = FType.option) :
    matchesFilter row f = true := by
  unfold matchesFilter
  cases columnsConfig.find? (fun c => c.id == f.columnId) with
  | none => rfl
  | some col => rw [h]

theorem matchesFilter_option_always_true_witness :
    matchesFilter ⟨"5.1", "Experience", "20%", ["80%", "60%"], none⟩
      ⟨"LangeTech", FType.option, ["80%"]⟩ = true :=
  matchesFilter_option_always_true _ _ rfl

/-! ## Vendor option lists (`$.tsx:641-648`) -/

/-- JS `new Set(...)` iteration order: deduplicate keeping the first
occurrence. -/
def jsDedupAux : List String → List String → List String
  | _, [] => []
  | seen, a :: t =>
    if a ∈ seen then jsDedupAux seen t else a :: jsDedupAux (seen ++ [a]) t

/-- JS `Array.from(new Set(l))`. -/
def jsDedup (l : List String) : List String := jsDedupAux [] l

theorem mem_jsDedupAux (a : String) :
    ∀ (l seen : List String), a ∈ jsDedupAux seen l ↔ a ∈ l ∧ a ∉ seen := by
  intro l
  induction l with
  | nil => intro seen; simp [jsDedupAux]
  | cons b t ih =>
    intro seen
    unfold jsDedupAux
    by_cases hb : b ∈ seen
    · rw [if_pos hb, ih]
      constructor
      · rintro ⟨h1, h2⟩
        exact ⟨List.mem_cons_of_mem _ h1, h2⟩
      · rintro ⟨h1, h2⟩
        rcases List.mem_cons.mp h1 with rfl | h1
        · exact absurd hb h2
        · exact ⟨h1, h2⟩
    · rw [if_neg hb]
      constructor
      · intro h
        rcases List.mem_cons.mp h with rfl | h
        · exact ⟨List.mem_cons_self _ _, hb⟩
        · rw [ih] at h
          refine ⟨List.mem_cons_of_mem _ h.1, fun hs => h.2 ?_⟩
          exact List.mem_append_left _ hs
      · rintro ⟨h1, h2⟩
        rcases List.mem_cons.mp h1 with rfl | h1
        · exact List.mem_cons_self _ _
        · by_cases hab : a = b
          · subst hab
            exact List.mem_cons_self _ _
          · refine List.mem_cons_of_mem _ ((ih _).mpr ⟨h1, fun hs => ?_⟩)
            rcases List.mem_append.mp hs with hs | hs
            · exact h2 hs
            · exact hab (List.mem_singleton.mp hs)

theorem mem_jsDedup (a : String) (l : List String) :
    a ∈ jsDedup l ↔ a ∈ l := by
  unfold jsDedup
  rw [mem_jsDedupAux]
  simp

theorem nodup_jsDedupAux :
    ∀ (l seen : List String), (jsDedupAux seen l).Nodup := by
  intro l
  induction l with
  | nil => intro seen; simp [jsDedupAux]
  | cons b t ih =>
    intro seen
    unfold jsDedupAux
    by_cases hb : b ∈ seen
    · rw [if_pos hb]
      exact ih seen
    · rw [if_neg hb]
      refine List.nodup_cons.mpr ⟨fun hmem => ?_, ih _⟩
      rw [mem_jsDedupAux] at hmem
      exact hmem.2 (List.mem_append_right _ (List.mem_singleton.mpr rfl))

/-- The child contribution of a row (`$.tsx:644`):
`row.sub.map(sub => sub.scores[idx]).filter(Boolean)` — the vendor's
scores of the children, dropping `undefined` and empty strings. -/
def truthyOptFilter (o : Option String) : Option String :=
  match o with
  | some s => if s = "" then none else some s
  | none => none

def childOptionScores (idx : ℕ) (row : TableRow) : List String :=
  match row.sub with
  | some subs =>
    (subs.map (fun sub => sub.scores[idx]?)).filterMap truthyOptFilter
  | none => []

/-- The contribution of one row (`$.tsx:642-645`):
```js
if (row.scores[idx]) return [row.scores[idx]];
if (row.sub) return row.sub.map(sub => sub.scores[idx]).filter(Boolean);
return [];
```
Note the early return: a row with a truthy own score never contributes
its children's scores. -/
def rowOptionScores (idx : ℕ) (row : TableRow) : List String :=
  match row.scores[idx]? with
  | some s => if s = "" then childOptionScores idx row else [s]
  | none => childOptionScores idx row

/-- Source (`$.tsx:641-648`): deduplicated values, each wrapped into a
`{ label: v, value: v }` pair. -/
def getVendorOptions (data : List TableRow) (idx : ℕ) :
    List (String × String) :=
  (jsDedup (data.flatMap (rowOptionScores idx))).map (fun v => (v, v))

/-- The option collection described by the claim: the vendor's non-empty
score at every top-level node that has one, plus the vendor's non-empty
score at every child of every node that exposes children. -/
def claimVendorOptionDescribed (data : List TableRow) (idx : ℕ)
    (v : String) : Prop :=
  v ≠ "" ∧ ((∃ row ∈ data, row.scores[idx]? = some v) ∨
    (∃ row ∈ data, ∃ sub ∈ row.sub.getD [], sub.scores[idx]? = some v))

theorem mem_childOptionScores (idx : ℕ) (row : TableRow) (v : String) :
    v ∈ childOptionScores idx row ↔
      v ≠ "" ∧ ∃ sub ∈ row.sub.getD [], sub.scores[idx]? = some v := by
  unfold childOptionScores
  cases hs : row.sub with
  | none => simp
  | some subs =>
    rw [List.mem_filterMap]
    simp only [List.mem_map, Option.getD_some]
    constructor
    · rintro ⟨o, ⟨sub, hsub, rfl⟩, ho⟩
      cases hg : sub.scores[idx]? with
      | none =>
        rw [hg] at ho
        exact absurd ho (by simp [truthyOptFilter])
      | some s =>
        rw [hg] at ho
        by_cases he : s = ""
        · rw [show truthyOptFilter (some s) = none from by
            simp [truthyOptFilter, he]] at ho
          exact absurd ho (by simp)
        · rw [show truthyOptFilter (some s) = some s from by
            simp [truthyOptFilter, he]] at ho
          simp only [Option.some_inj] at ho
          subst ho
          exact ⟨he, sub, hsub, hg⟩
    · rintro ⟨hne, sub, hsub, hg⟩
      refine ⟨sub.scores[idx]?, ⟨sub, hsub, rfl⟩, ?_⟩
      rw [hg]
      simp [truthyOptFilter, hne]

theorem mem_rowOptionScores (idx : ℕ) (row : TableRow) (v : String) :
    v ∈ rowOptionScores idx row ↔
      v ≠ "" ∧ (row.scores[idx]? = some v ∨
        ((row.scores[idx]? = none ∨ row.scores[idx]? = some "") ∧
          ∃ sub ∈ row.sub.getD [], sub.scores[idx]? = some v)) := by
  unfold rowOptionScores
  cases hg : row.scores[idx]? with
  | none =>
    dsimp only
    rw [mem_childOptionScores]
    constructor
    · rintro ⟨hne, hsub⟩
      exact ⟨hne, Or.inr ⟨Or.inl rfl, hsub⟩⟩
    · rintro ⟨hne, hc | ⟨_, hsub⟩⟩
      · exact absurd hc (by simp)
      · exact ⟨hne, hsub⟩
  | some s =>
    dsimp only
    by_cases he : s = ""
    · subst he
      rw [if_pos rfl, mem_childOptionScores]
      constructor
      · rintro ⟨hne, hsub⟩
        exact ⟨hne, Or.inr ⟨Or.inr rfl, hsub⟩⟩
      · rintro ⟨hne, hc | ⟨_, hsub⟩⟩
        · rw [Option.some_inj] at hc
          exact absurd hc.symm hne
        · exact ⟨hne, hsub⟩
    · rw [if_neg he, List.mem_singleton]
      constructor
      · rintro rfl
        exact ⟨he, Or.inl rfl⟩
      · rintro ⟨hne, hc | ⟨hbad, _⟩⟩
        · exact (Option.some_inj.mp hc).symm
        · rcases hbad with hbad | hbad
          · exact absurd hbad (by simp)
          · rw [Option.some_inj] at hbad
            exact absurd hbad he

/-- Claim C8, amended: A pair `(v, v)` is an option for vendor column
`idx` iff `v` is non-empty and is either the vendor's score at a
top-level node, or — only for a top-level node whose own score for this
vendor is missing or empty — the vendor's score at one of that node's
children; the list is duplicate-free (first occurrences kept). -/
theorem getVendorOptions_characterization (data : List TableRow)
    (idx : ℕ) :
    (∀ v : String, ((v, v) ∈ getVendorOptions data idx ↔
      v ≠ "" ∧ ∃ row ∈ data, (row.scores[idx]? = some v ∨
        ((row.scores[idx]? = none ∨ row.scores[idx]? = some "") ∧
          ∃ sub ∈ row.sub.getD [], sub.scores[idx]? = some v)))) ∧
    (getVendorOptions data idx).Nodup := by
  constructor
  · intro v
    unfold getVendorOptions
    rw [show ((v, v) ∈ (jsDedup (data.flatMap (rowOptionScores idx))).map
          (fun v => (v, v)) ↔
        v ∈ jsDedup (data.flatMap (rowOptionScores idx))) from by
      simp [List.mem_map]]
    rw [mem_jsDedup, List.mem_flatMap]
    constructor
    · rintro ⟨row, hrow, hv⟩
      rw [mem_rowOptionScores] at hv
      exact ⟨hv.1, row, hrow, hv.2⟩
    · rintro ⟨hne, row, hrow, hv⟩
      exact ⟨row, hrow, (mem_rowOptionScores idx row v).mpr ⟨hne, hv⟩⟩
  · unfold getVendorOptions
    refine List.Nodup.map ?_ (nodup_jsDedupAux _ _)
    intro a b hab
    exact congrArg Prod.fst hab

/-- Claim C8, counterexample to the claim as stated: On a tree whose
single top-level node has the non-empty score `"80%"` and a child with
score `"90%"`, the claim's description contains `"90%"`, but the code's
early return (`if (row.scores[idx]) return [row.scores[idx]]`) never
reaches the children of a node with a truthy own score, so `"90%"` is
not an option. -/
theorem getVendorOptions_counterexample :
    claimVendorOptionDescribed
      [⟨"5.1", "Section", "20%", ["80%"],
        some [⟨"5.1.1", "crit", "", ["90%"]⟩]⟩] 0 "90%" ∧
    ("90%", "90%") ∉ getVendorOptions
      [⟨"5.1", "Section", "20%", ["80%"],
        some [⟨"5.1.1", "crit", "", ["90%"]⟩]⟩] 0 := by
  constructor
  · unfold claimVendorOptionDescribed
    decide
  · decide

/-! ## Criteria-tree weight mutation (`$.tsx:448-464`) -/

/-- Source (`$.tsx:456-458`): `subRow.id === rowId ? { ...subRow,
weight: value } : subRow`. -/
def updateSubWeight (rowId value : String) (subRow : SubCriteria) :
    SubCriteria :=
  if subRow.id = rowId then { subRow with weight := value } else subRow

/-- Source (`$.tsx:450-462`): a top-level row whose id matches gets its
weight replaced (children untouched); otherwise, when the row has a
`sub` list, the matching child's weight is replaced. -/
def updateRowWeight (rowId value : String) (row : TableRow) : TableRow :=
  if row.id = rowId then { row with weight := value }
  else
    match row.sub with
    | some subs =>
      { row with sub := some (subs.map (updateSubWeight rowId value)) }
    | none => row

/-- Source (`$.tsx:448-464`): the `setWeight` mutation over the whole
tree (`setData(prevData => prevData.map(...))`). -/
def handleWeightChange (data : List TableRow) (rowId value : String) :
    List TableRow :=
  data.map (updateRowWeight rowId value)

/-- The ids owned by one row: its own id and its direct children's. -/
def rowIds (row : TableRow) : List String :=
  row.id :: (row.sub.getD []).map SubCriteria.id

/-- All ids in the tree (top level and direct children). -/
def allIds (data : List TableRow) : List String := data.flatMap rowIds

theorem updateSubWeight_of_ne (rowId value : String) (s : SubCriteria)
    (h : s.id ≠ rowId) : updateSubWeight rowId value s = s := by
  unfold updateSubWeight
  rw [if_neg h]

theorem map_eq_self_of_forall {α : Type} (f : α → α) :
    ∀ l : List α, (∀ x ∈ l, f x = x) → l.map f = l := by
  intro l
  induction l with
  | nil => intro _; rfl
  | cons a t ih =>
    intro h
    rw [List.map_cons, h a (List.mem_cons_self a t),
      ih (fun x hx => h x (List.mem_cons_of_mem a hx))]

theorem updateRowWeight_of_not_mem (rowId value : String) (row : TableRow)
    (h : rowId ∉ rowIds row) : updateRowWeight rowId value row = row := by
  unfold updateRowWeight
  unfold rowIds at h
  rw [List.mem_cons, not_or] at h
  obtain ⟨h1, h2⟩ := h
  rw [if_neg (fun he => h1 he.symm)]
  cases hrow : row.sub with
  | none => rfl
  | some subs =>
    dsimp only
    rw [hrow] at h2
    simp only [Option.getD_some] at h2
    have hmap := map_eq_self_of_forall (updateSubWeight rowId value) subs
      (fun s hsmem => updateSubWeight_of_ne _ _ s
        (fun he => h2 (List.mem_map.mpr ⟨s, hsmem, he⟩)))
    rw [hmap]
    cases row with
    | mk id title weight scores sub =>
      simp only at hrow
      rw [← hrow]

/-- Claim C9: `setWeight` with an id that matches neither a top-level node
nor any direct child leaves the tree unchanged: the unknown id is
silently ignored. -/
theorem handleWeightChange_unknown_id (data : List TableRow)
    (rowId value : String) (h : rowId ∉ allIds data) :
    handleWeightChange data rowId value = data := by
  unfold handleWeightChange
  apply map_eq_self_of_forall
  intro row hrow
  apply updateRowWeight_of_not_mem
  intro hmem
  exact h (by unfold allIds; exact List.mem_flatMap.mpr ⟨row, hrow, hmem⟩)

/-- A two-section sample tree used to instantiate the universally
quantified tree theorems. -/
def sampleData : List TableRow :=
  [⟨"5.1", "Experience and Capabilities", "20%", ["80%", "60%"],
    some [⟨"5.1.1", "crit A", "", ["70%", "80%"]⟩,
          ⟨"5.1.2", "crit B", "", ["65%", "75%"]⟩]⟩,
   ⟨"5.2", "Service Approach", "80%", ["40%", "90%"], none⟩]

theorem handleWeightChange_unknown_id_witness :
    ("9.9" ∉ allIds sampleData) ∧
    handleWeightChange sampleData "9.9" "10%" = sampleData :=
  ⟨by decide, handleWeightChange_unknown_id sampleData "9.9" "10%" (by decide)⟩

/-- Everything of a sub-criterion except its weight. -/
def subShape (s : SubCriteria) : String × String × List String :=
  (s.id, s.text, s.scores)

/-- Everything of a row except the weights: id, title, scores, and the
children's non-weight fields (preserving presence and order of the
child list). -/
def rowShape (row : TableRow) :
    String × String × List String ×
      Option (List (String × String × List String)) :=
  (row.id, row.title, row.scores, row.sub.map (fun subs => subs.map subShape))

def treeShape (data : List TableRow) :
    List (String × String × List String ×
      Option (List (String × String × List String))) :=
  data.map rowShape

/-- The weight stored at the node with the given id (top-level scan
first, then each row's direct children), `none` if the id is absent. -/
def rowWeightAt (target : String) (row : TableRow) : Option String :=
  if row.id = target then some row.weight
  else ((row.sub.getD []).find? (fun s => s.id == target)).map
    SubCriteria.weight

def weightAt (data : List TableRow) (target : String) : Option String :=
  match data with
  | [] => none
  | row :: rest =>
    match rowWeightAt target row with
    | some w => some w
    | none => weightAt rest target

theorem updateSubWeight_id (rowId value : String) (s : SubCriteria) :
    (updateSubWeight rowId value s).id = s.id := by
  unfold updateSubWeight
  split <;> rfl

theorem subShape_updateSubWeight (rowId value : String) (s : SubCriteria) :
    subShape (updateSubWeight rowId value s) = subShape s := by
  unfold updateSubWeight subShape
  split <;> rfl

theorem find?_map_updateSubWeight (rowId value target : String)
    (subs : List SubCriteria) :
    (subs.map (updateSubWeight rowId value)).find?
        (fun s => s.id == target) =
      Option.map (updateSubWeight rowId value)
        (subs.find? (fun s => s.id == target)) := by
  have hfun : ((fun s : SubCriteria => s.id == target) ∘
      updateSubWeight rowId value) =
      (fun s : SubCriteria => s.id == target) :=
    funext (fun s => by simp [Function.comp, updateSubWeight_id])
  rw [List.find?_map, hfun]

theorem rowShape_updateRowWeight (rowId value : String) (row : TableRow) :
    rowShape (updateRowWeight rowId value row) = rowShape row := by
  unfold updateRowWeight
  split
  · rfl
  · cases hrow : row.sub with
    | none => rfl
    | some subs =>
      dsimp only
      unfold rowShape
      simp [hrow, List.map_map, Function.comp, subShape_updateSubWeight]

/-- A row answers `none` for `target` exactly when `target` is not among
its ids. -/
theorem rowWeightAt_eq_none_iff (target : String) (row : TableRow) :
    rowWeightAt target row = none ↔ target ∉ rowIds row := by
  unfold rowWeightAt rowIds
  by_cases hid : row.id = target
  · rw [if_pos hid]
    simp [hid]
  · rw [if_neg hid]
    rw [Option.map_eq_none', List.find?_eq_none]
    constructor
    · intro hall hmem
      rcases List.mem_cons.mp hmem with he | he
      · exact hid he.symm
      · rcases List.mem_map.mp he with ⟨s, hs, hsid⟩
        have hps := hall s hs
        simp [hsid] at hps
    · intro hnmem s hs
      simp only [beq_iff_eq]
      intro hsid
      exact hnmem (List.mem_cons_of_mem _
        (List.mem_map.mpr ⟨s, hs, hsid⟩))

/-- Updating the target rewrites exactly the answer a row gives for the
target id. -/
theorem rowWeightAt_updateRowWeight_target (target value : String)
    (row : TableRow) :
    rowWeightAt target (updateRowWeight target value row) =
      (rowWeightAt target row).map (fun _ => value) := by
  by_cases hid : row.id = target
  · simp [updateRowWeight, rowWeightAt, hid]
  · cases hrow : row.sub with
    | none => simp [updateRowWeight, rowWeightAt, hid, hrow]
    | some subs =>
      simp only [updateRowWeight, if_neg hid, hrow]
      simp only [rowWeightAt, if_neg hid, hrow, Option.getD_some]
      rw [find?_map_updateSubWeight]
      cases hf : subs.find? (fun s => s.id == target) with
      | none => simp
      | some s =>
        have hsid : s.id = target := by
          simpa using List.find?_some hf
        simp [updateSubWeight, hsid]

/-- Updating the target does not change the answer a row gives for any
other id. -/
theorem rowWeightAt_updateRowWeight_other (target value other : String)
    (hne : other ≠ target) (row : TableRow) :
    rowWeightAt other (updateRowWeight target value row) =
      rowWeightAt other row := by
  by_cases hid : row.id = target
  · have hido : ¬row.id = other := fun h => hne (h.symm.trans hid)
    simp [updateRowWeight, rowWeightAt, hid, hido, Ne.symm hne]
  · cases hrow : row.sub with
    | none => simp [updateRowWeight, hid, hrow]
    | some subs =>
      by_cases hido : row.id = other
      · simp [updateRowWeight, rowWeightAt, hid, hido, hrow, hne]
      · simp only [updateRowWeight, if_neg hid, hrow]
        simp only [rowWeightAt, if_neg hido, hrow, Option.getD_some]
        rw [find?_map_updateSubWeight]
        cases hf : subs.find? (fun s => s.id == other) with
        | none => simp
        | some s =>
          have hsid : s.id = other := by
            simpa using List.find?_some hf
          have hsnt : ¬s.id = target := fun h => hne (hsid.symm.trans h)
          simp [updateSubWeight, hsnt]

theorem treeShape_handleWeightChange (data : List TableRow)
    (target value : String) :
    treeShape (handleWeightChange data target value) = treeShape data := by
  unfold treeShape handleWeightChange
  rw [List.map_map]
  have hfun : rowShape ∘ updateRowWeight target value = rowShape :=
    funext (fun row => rowShape_updateRowWeight target value row)
  rw [hfun]

theorem weightAt_handleWeightChange_target (data : List TableRow)
    (target value : String) (hmem : target ∈ allIds data) :
    weightAt (handleWeightChange data target value) target = some value := by
  induction data with
  | nil => simp [allIds] at hmem
  | cons row rest ih =>
    simp only [handleWeightChange, List.map_cons, weightAt]
    rw [rowWeightAt_updateRowWeight_target target value row]
    cases hr : rowWeightAt target row with
    | some w => rfl
    | none =>
      have hnot := (rowWeightAt_eq_none_iff target row).mp hr
      have hrest : target ∈ allIds rest := by
        unfold allIds at hmem ⊢
        rcases List.mem_flatMap.mp hmem with ⟨r, hrm, hm⟩
        rcases List.mem_cons.mp hrm with rfl | hrm
        · exact absurd hm hnot
        · exact List.mem_flatMap.mpr ⟨r, hrm, hm⟩
      have := ih hrest
      simpa [handleWeightChange] using this

theorem weightAt_handleWeightChange_other (data : List TableRow)
    (target value other : String) (hne : other ≠ target) :
    weightAt (handleWeightChange data target value) other =
      weightAt data other := by
  induction data with
  | nil => rfl
  | cons row rest ih =>
    simp only [handleWeightChange, List.map_cons, weightAt]
    rw [rowWeightAt_updateRowWeight_other target value other hne row]
    cases hr : rowWeightAt other row with
    | some w => rfl
    | none =>
      simpa [handleWeightChange] using ih

/-- Claim C10: When the tree's ids are unique and the target id is
present, `setWeight` changes only the weight of the target node: every
non-weight field of every node (ids, titles, scores, child-list
structure) is unchanged, the target's stored weight becomes the new
value, and the stored weight of every other id is unchanged. -/
theorem handleWeightChange_frame (data : List TableRow)
    (target value : String) (hnodup : (allIds data).Nodup)
    (hmem : target ∈ allIds data) :
    treeShape (handleWeightChange data target value) = treeShape data ∧
    weightAt (handleWeightChange data target value) target = some value ∧
    (∀ other, other ≠ target →
      weightAt (handleWeightChange data target value) other =
        weightAt data other) :=
  ⟨treeShape_handleWeightChange data target value,
   weightAt_handleWeightChange_target data target value hmem,
   fun other hne =>
     weightAt_handleWeightChange_other data target value other hne⟩

theorem handleWeightChange_frame_witness :
    ((allIds sampleData).Nodup ∧ "5.1.2" ∈ allIds sampleData) ∧
    (treeShape (handleWeightChange sampleData "5.1.2" "15%") =
        treeShape sampleData ∧
      weightAt (handleWeightChange sampleData "5.1.2" "15%") "5.1.2" =
        some "15%" ∧
      (∀ other, other ≠ "5.1.2" →
        weightAt (handleWeightChange sampleData "5.1.2" "15%") other =
          weightAt sampleData other)) :=
  ⟨⟨by decide, by decide⟩,
   handleWeightChange_frame sampleData "5.1.2" "15%" (by decide) (by decide)⟩

end RFP
